import Mathlib

/-!
# Verification of `vast::util::range_map` (src/vast/util/range_map.hpp)

A shallow embedding of the interval map from `range_map.hpp`.  The C++
container is a `std::map<Point, std::pair<Point, Value>>` keyed by the left
endpoint of each stored half-open interval.  We model a map state as a list
of entries sorted by left endpoint (the iteration order of the `std::map`),
with `Point = Int` (the C++ code requires an arithmetic type) and an
arbitrary value type `V` with decidable equality (the C++ code requires
`Value` to support `==`).

Iterators are modelled as indices into the list; `map_.end()` corresponds to
an out-of-range index, observed through `m[i]? = none`.  The unbounded
`for (;;)` loop of `erase(Point, Point)` is modelled with explicit fuel
together with a boolean reporting whether the loop reached one of its
`break`/return points within the given fuel; `erase_range` runs it with
fuel `m.length + 1`, which the termination theorem below proves sufficient
for well-formed states.
-/

set_option linter.unusedSectionVars false

namespace range_map

/-- One stored entry of the map: key `left` mapped to `(right, val)`,
representing the half-open interval `[left, right)` with its value. -/
structure Entry (V : Type) where
  left : Int
  right : Int
  val : V
deriving DecidableEq, Repr

variable {V : Type} [DecidableEq V]

/-- `map_.lower_bound(p)`: index of the first entry whose key (left endpoint)
is not less than `p`.  On a key-sorted list this is exactly the number of
leading entries with `left < p`. -/
def lower_bound (m : List (Entry V)) (p : Int) : Nat :=
  (m.takeWhile (fun e => decide (e.left < p))).length

/-- `locate(p, lb)` with `lb = map_.lower_bound(p)`: returns the iterator of
the candidate entry for point `p`, i.e. `lb` itself when `p` equals its key,
otherwise the predecessor of `lb` when `p` lies below its right endpoint;
`none` models returning `map_.end()`. -/
def locate (m : List (Entry V)) (p : Int) : Option Nat :=
  let lb := lower_bound m p
  if (m[lb]?).map Entry.left = some p then some lb
  else if 0 < lb then
    match m[lb - 1]? with
    | some e => if p < e.right then some (lb - 1) else none
    | none => none
  else none

/-- `map_.emplace(l, std::make_pair(r, v))`: inserts a new entry at key `l`
if that key is absent (keeping key order), and reports whether the insertion
took place. -/
def emplace (m : List (Entry V)) (l r : Int) (v : V) : List (Entry V) × Bool :=
  if m.any (fun e => decide (e.left = l)) then (m, false)
  else (m.takeWhile (fun e => decide (e.left < l)) ++
          ⟨l, r, v⟩ :: m.dropWhile (fun e => decide (e.left < l)), true)

/-- In-place update `right(it) = x` for the entry at index `i`
(`std::map` iterators let the mapped pair be mutated; the key is fixed). -/
def set_right (m : List (Entry V)) (i : Nat) (x : Int) : List (Entry V) :=
  match m[i]? with
  | some e => m.set i ⟨e.left, x, e.val⟩
  | none => m

/-- `map_.erase(it)` where `it` is the entry with key `k`: removes the
(first, and in a real map state unique) entry with left endpoint `k`. -/
def erase_key (m : List (Entry V)) (k : Int) : List (Entry V) :=
  m.eraseP (fun e => decide (e.left = k))

/-- `range_map::insert(l, r, v)`: strict insertion.  Fails on an invalid
range, when `locate` finds an interval containing `l`, or when the lower
bound entry starts before `r`; otherwise emplaces the new entry. -/
def insert (m : List (Entry V)) (l r : Int) (v : V) : List (Entry V) × Bool :=
  if r ≤ l then (m, false)
  else if (locate m l).isNone
      && (m[lower_bound m l]?).all (fun e => decide (r ≤ e.left)) then
    emplace m l r v
  else (m, false)

/-- The iterator adjustment opening `range_map::inject` on a non-empty map:
`i = map_.lower_bound(l)`, then
`if (i == map_.end() || (i != map_.begin() && l != left(i))) --i`. -/
def adjust (m : List (Entry V)) (l : Int) : Nat :=
  let i0 := lower_bound m l
  if i0 = m.length ∨ (i0 ≠ 0 ∧ (m[i0]?).map Entry.left ≠ some l) then i0 - 1
  else i0

/-- The iterator `p` of `inject`: the predecessor of `i`, or `map_.end()`
(modelled as `none`) when `i` is the first entry. -/
def prev_entry (m : List (Entry V)) (i : Nat) : Option (Entry V) :=
  if i = 0 then none else m[i - 1]?

/-- `fits_left` of `inject`: `r <= left(i) && (p == map_.end() || l >= right(p))`. -/
def fits_left_check (m : List (Entry V)) (i : Nat) (ei : Entry V)
    (l r : Int) : Bool :=
  decide (r ≤ ei.left) &&
    (match prev_entry m i with
     | none => true
     | some e => decide (e.right ≤ l))

/-- `fits_right` of `inject`: `l >= right(i) && (n == map_.end() || r <= left(n))`. -/
def fits_right_check (m : List (Entry V)) (i : Nat) (ei : Entry V)
    (l r : Int) : Bool :=
  decide (ei.right ≤ l) &&
    (match m[i + 1]? with
     | none => true
     | some e => decide (r ≤ e.left))

/-- `left_merge` of `inject`'s `fits_left` branch:
`p != map_.end() && l == right(p) && v == value(p)`. -/
def left_merge_prev (m : List (Entry V)) (i : Nat) (l : Int) (v : V) : Bool :=
  match prev_entry m i with
  | none => false
  | some e => decide (l = e.right) && decide (v = e.val)

/-- `right_merge` of `inject`'s `fits_left` branch:
`r == left(i) && v == value(i)`. -/
def right_merge_here (ei : Entry V) (r : Int) (v : V) : Bool :=
  decide (r = ei.left) && decide (v = ei.val)

/-- `left_merge` of `inject`'s `fits_right` branch:
`l == right(i) && v == value(i)`. -/
def left_merge_here (ei : Entry V) (l : Int) (v : V) : Bool :=
  decide (l = ei.right) && decide (v = ei.val)

/-- `right_merge` of `inject`'s `fits_right` branch:
`n != map_.end() && r == left(n) && v == value(n)`. -/
def right_merge_next (m : List (Entry V)) (i : Nat) (r : Int) (v : V) : Bool :=
  match m[i + 1]? with
  | none => false
  | some e => decide (r = e.left) && decide (v = e.val)

/-- The `fits_left` branch of `inject`: merge with the predecessor and/or
the entry at `i` as the C++ does, otherwise emplace the new entry. -/
def inject_left (m : List (Entry V)) (i : Nat) (ei : Entry V) (l r : Int)
    (v : V) : List (Entry V) × Bool :=
  if left_merge_prev m i l v && right_merge_here ei r v then
    ((set_right m (i - 1) ei.right).eraseIdx i, true)
  else if left_merge_prev m i l v then
    (set_right m (i - 1) r, true)
  else if right_merge_here ei r v then
    (erase_key (emplace m l ei.right v).1 ei.left, true)
  else
    ((emplace m l r v).1, true)

/-- The `fits_right` branch of `inject`: merge with the entry at `i` and/or
its successor as the C++ does, otherwise emplace the new entry.  The
`(m, false)` bodies are unreachable (`right_merge` forces the successor to
exist); they only make the match total. -/
def inject_right (m : List (Entry V)) (i : Nat) (ei : Entry V) (l r : Int)
    (v : V) : List (Entry V) × Bool :=
  if left_merge_here ei l v && right_merge_next m i r v then
    match m[i + 1]? with
    | some en => ((set_right m i en.right).eraseIdx (i + 1), true)
    | none => (m, false)
  else if left_merge_here ei l v then
    (set_right m i r, true)
  else if right_merge_next m i r v then
    match m[i + 1]? with
    | some en => (erase_key (emplace m l en.right v).1 en.left, true)
    | none => (m, false)
  else
    ((emplace m l r v).1, true)

/-- `range_map::inject(l, r, v)`: merge-aware insertion.  Mirrors the C++
control flow: adjust the lower-bound iterator to the entry at-or-before `l`,
assess `fits_left`/`fits_right`, then run the selected merge branch.  The
`(m, false)` body of the `none` arm is unreachable on a non-empty map. -/
def inject (m : List (Entry V)) (l r : Int) (v : V) : List (Entry V) × Bool :=
  if r ≤ l then (m, false)
  else if m.isEmpty then emplace m l r v
  else
    match m[adjust m l]? with
    | none => (m, false)
    | some ei =>
      if fits_left_check m (adjust m l) ei l r then
        inject_left m (adjust m l) ei l r v
      else if fits_right_check m (adjust m l) ei l r then
        inject_right m (adjust m l) ei l r v
      else (m, false)

/-- `range_map::erase(Point p)`: removes the entry whose interval contains
`p` (found via `locate`), reporting whether a removal occurred. -/
def erase (m : List (Entry V)) (p : Int) : List (Entry V) × Bool :=
  match locate m p with
  | none => (m, false)
  | some i => (m.eraseIdx i, true)

/-- The candidate iterator of one `erase(l, r)` scan step:
`auto it = locate(next_left, lb); if (it == map_.end()) it = lb;` where
`lb = map_.lower_bound(next_left)`. -/
def candidate (m : List (Entry V)) (nl : Int) : Nat :=
  match locate m nl with
  | some j => j
  | none => lower_bound m nl

/-- The `for (;;)` scan of `range_map::erase(Point l, Point r)`, with fuel.
The boolean result is `true` exactly when the loop reached one of its
`break` points (or the enclosing function would return) within the fuel,
and `false` when the fuel ran out first.  Each iteration recomputes the
candidate `it` (via `locate`, falling back on the lower bound), stops when
there is no candidate or it starts at or beyond `r`, saves
`next_left = right(it)` before mutating, and resolves the four overlap
cases exactly as the C++ does. -/
def erase_loop (l r : Int) : Nat → List (Entry V) → Int → List (Entry V) × Bool
  | 0, m, _ => (m, false)
  | fuel + 1, m, nl =>
    match m[candidate m nl]? with
    | none => (m, true)
    | some e =>
      if r ≤ e.left then (m, true)
      else if l ≤ e.left ∧ e.right ≤ r then
        erase_loop l r fuel (m.eraseIdx (candidate m nl)) e.right
      else if e.left ≤ l ∧ r ≤ e.right then
        ((inject (set_right m (candidate m nl) l) r e.right e.val).1, true)
      else if l ≤ e.left ∧ e.left < r then
        (erase_key (emplace m r e.right e.val).1 e.left, true)
      else if l < e.right ∧ e.right ≤ r then
        erase_loop l r fuel (set_right m (candidate m nl) l) e.right
      else
        erase_loop l r fuel m e.right

/-- `range_map::erase(Point l, Point r)`: no-op on an invalid range,
otherwise the scan starting at cursor `l`.  Fuel `m.length + 1` is proved
sufficient for well-formed states by the termination theorem. -/
def erase_range (m : List (Entry V)) (l r : Int) : List (Entry V) :=
  if r ≤ l then m else (erase_loop l r (m.length + 1) m l).1

/-- `range_map::lookup(p)`: the value of the interval containing `p`,
`none` modelling the null pointer. -/
def lookup (m : List (Entry V)) (p : Int) : Option V :=
  match locate m p with
  | some i => (m[i]?).map Entry.val
  | none => none

/-- `range_map::find(p)`: interval bounds together with the value for the
interval containing `p`, and the sentinel `(0, 0, none)` otherwise.  The
`(0, 0, none)` body of the inner `some` arm is unreachable (locate only
returns in-range indices). -/
def find (m : List (Entry V)) (p : Int) : Int × Int × Option V :=
  match locate m p with
  | none => (0, 0, none)
  | some i =>
    match m[i]? with
    | some e => (e.left, e.right, some e.val)
    | none => (0, 0, none)

/-- `range_map::size()`. -/
def size (m : List (Entry V)) : Nat := m.length

/-- `range_map::empty()`. -/
def emptyq (m : List (Entry V)) : Bool := m.isEmpty

/-- `range_map::clear()`. -/
def clear (_m : List (Entry V)) : List (Entry V) := []

/-- The documented invariant of the container: every stored interval is
non-degenerate (`left < right`) and, in traversal order, intervals are
pairwise disjoint (`A.right ≤ B.left`). -/
def Invariant (m : List (Entry V)) : Prop :=
  (∀ e ∈ m, e.left < e.right) ∧ m.Pairwise (fun a b => a.right ≤ b.left)

/-- Weak well-formedness: every entry satisfies `left ≤ right` (degenerate
empty intervals allowed), keys strictly increase, and intervals are pairwise
disjoint.  Every state the public API can actually produce satisfies this,
including the degenerate states produced by the `erase(l, r)` splitting bug
exhibited below. -/
def SortedValid (m : List (Entry V)) : Prop :=
  (∀ e ∈ m, e.left ≤ e.right) ∧
    m.Pairwise (fun a b => a.right ≤ b.left ∧ a.left < b.left)

/-- Map states reachable from the empty map through the public API. -/
inductive Reach : List (Entry V) → Prop
  | empty : Reach []
  | ins (m : List (Entry V)) (l r : Int) (v : V) :
      Reach m → Reach (insert m l r v).1
  | inj (m : List (Entry V)) (l r : Int) (v : V) :
      Reach m → Reach (inject m l r v).1
  | erp (m : List (Entry V)) (p : Int) :
      Reach m → Reach (erase m p).1
  | erg (m : List (Entry V)) (l r : Int) :
      Reach m → Reach (erase_range m l r)
  | clr (m : List (Entry V)) :
      Reach m → Reach (clear m)

/-! ### Basic facts about `lower_bound` -/

theorem lower_bound_cons (e : Entry V) (t : List (Entry V)) (p : Int) :
    lower_bound (e :: t) p = if e.left < p then lower_bound t p + 1 else 0 := by
  by_cases h : e.left < p <;> simp [lower_bound, List.takeWhile_cons, h]

theorem lower_bound_le_length (m : List (Entry V)) (p : Int) :
    lower_bound m p ≤ m.length :=
  (List.takeWhile_sublist _).length_le

theorem left_lt_of_lt_lower_bound {m : List (Entry V)} {p : Int} {j : Nat}
    {d : Entry V} (hj : j < lower_bound m p) (hd : m[j]? = some d) :
    d.left < p := by
  induction m generalizing j with
  | nil => simp at hd
  | cons e t ih =>
    rw [lower_bound_cons] at hj
    by_cases h : e.left < p
    · rw [if_pos h] at hj
      cases j with
      | zero =>
        have hed : e = d := by simpa using hd
        exact hed ▸ h
      | succ j =>
        have hj' : j < lower_bound t p := by omega
        exact ih hj' (by simpa using hd)
    · rw [if_neg h] at hj; omega

theorem le_left_of_lower_bound {m : List (Entry V)} {p : Int} {d : Entry V}
    (hd : m[lower_bound m p]? = some d) : p ≤ d.left := by
  induction m with
  | nil => simp at hd
  | cons e t ih =>
    rw [lower_bound_cons] at hd
    by_cases h : e.left < p
    · rw [if_pos h] at hd; exact ih (by simpa using hd)
    · rw [if_neg h] at hd
      have hed : e = d := by simpa using hd
      rw [← hed]
      omega

theorem lower_bound_eq {m : List (Entry V)} {p : Int} {k : Nat}
    (hk : k ≤ m.length)
    (hbelow : ∀ j, j < k → ∀ d, m[j]? = some d → d.left < p)
    (habove : ∀ d, m[k]? = some d → p ≤ d.left) :
    lower_bound m p = k := by
  induction m generalizing k with
  | nil => simp at hk; simp [lower_bound, hk]
  | cons e t ih =>
    rw [lower_bound_cons]
    cases k with
    | zero =>
      have := habove e (by simp)
      rw [if_neg (by omega)]
    | succ k =>
      have he : e.left < p := hbelow 0 (by omega) e (by simp)
      rw [if_pos he]
      have ht : lower_bound t p = k :=
        ih (by simpa using hk)
          (fun j hj d hd => hbelow (j + 1) (by omega) d (by simpa using hd))
          (fun d hd => habove d (by simpa using hd))
      omega

theorem mem_of_getElem? {m : List (Entry V)} {i : Nat} {e : Entry V}
    (h : m[i]? = some e) : e ∈ m := by
  obtain ⟨hi, rfl⟩ := List.getElem?_eq_some.mp h
  exact List.getElem_mem hi

theorem lt_length_of_getElem? {m : List (Entry V)} {i : Nat} {e : Entry V}
    (h : m[i]? = some e) : i < m.length := by
  obtain ⟨hi, -⟩ := List.getElem?_eq_some.mp h
  exact hi

/-! ### Access lemmas for the well-formedness predicates -/

theorem SortedValid.ordRel {m : List (Entry V)} (h : SortedValid m) {i j : Nat}
    {a b : Entry V} (hij : i < j) (ha : m[i]? = some a) (hb : m[j]? = some b) :
    a.right ≤ b.left ∧ a.left < b.left := by
  obtain ⟨hi, rfl⟩ := List.getElem?_eq_some.mp ha
  obtain ⟨hj, rfl⟩ := List.getElem?_eq_some.mp hb
  exact (List.pairwise_iff_getElem.mp h.2) i j hi hj hij

theorem SortedValid.wide {m : List (Entry V)} (h : SortedValid m) {i : Nat}
    {a : Entry V} (ha : m[i]? = some a) : a.left ≤ a.right :=
  h.1 a (mem_of_getElem? ha)

theorem Invariant.disjRel {m : List (Entry V)} (h : Invariant m) {i j : Nat}
    {a b : Entry V} (hij : i < j) (ha : m[i]? = some a) (hb : m[j]? = some b) :
    a.right ≤ b.left := by
  obtain ⟨hi, rfl⟩ := List.getElem?_eq_some.mp ha
  obtain ⟨hj, rfl⟩ := List.getElem?_eq_some.mp hb
  exact (List.pairwise_iff_getElem.mp h.2) i j hi hj hij

theorem Invariant.valid {m : List (Entry V)} (h : Invariant m) {i : Nat}
    {a : Entry V} (ha : m[i]? = some a) : a.left < a.right :=
  h.1 a (mem_of_getElem? ha)

theorem Invariant.sortedValid {m : List (Entry V)} (h : Invariant m) :
    SortedValid m := by
  refine ⟨fun e he => le_of_lt (h.1 e he), List.pairwise_iff_getElem.mpr ?_⟩
  intro i j hi hj hij
  have h1 := (List.pairwise_iff_getElem.mp h.2) i j hi hj hij
  have h2 := h.1 _ (List.getElem_mem hi)
  exact ⟨h1, by omega⟩

/-! ### Behaviour of `locate` -/

theorem locate_eq_some {m : List (Entry V)} {p : Int} {j : Nat}
    (h : locate m p = some j) :
    ∃ e, m[j]? = some e ∧
      ((j = lower_bound m p ∧ e.left = p) ∨
       (j + 1 = lower_bound m p ∧ e.left < p ∧ p < e.right)) := by
  unfold locate at h
  by_cases h1 : (m[lower_bound m p]?).map Entry.left = some p
  · rw [if_pos h1] at h
    have hj : lower_bound m p = j := by simpa using h
    obtain ⟨e, he, hl⟩ := Option.map_eq_some'.mp h1
    subst hj
    exact ⟨e, he, Or.inl ⟨rfl, hl⟩⟩
  · rw [if_neg h1] at h
    by_cases h2 : 0 < lower_bound m p
    · rw [if_pos h2] at h
      cases he : m[lower_bound m p - 1]? with
      | none =>
        rw [he] at h
        have h' : (none : Option Nat) = some j := h
        exact absurd h' (by simp)
      | some e =>
        rw [he] at h
        have h' : (if p < e.right then some (lower_bound m p - 1) else none)
            = some j := h
        by_cases h3 : p < e.right
        · rw [if_pos h3] at h'
          have hj : lower_bound m p - 1 = j := by simpa using h'
          subst hj
          have hlt : e.left < p :=
            left_lt_of_lt_lower_bound (by omega) he
          exact ⟨e, he, Or.inr ⟨by omega, hlt, h3⟩⟩
        · rw [if_neg h3] at h'; exact absurd h' (by simp)
    · rw [if_neg h2] at h; exact absurd h (by simp)

theorem locate_eq_none {m : List (Entry V)} {p : Int}
    (h : locate m p = none) :
    (m[lower_bound m p]?).map Entry.left ≠ some p ∧
      (∀ e, 0 < lower_bound m p → m[lower_bound m p - 1]? = some e →
        e.right ≤ p) := by
  unfold locate at h
  by_cases h1 : (m[lower_bound m p]?).map Entry.left = some p
  · rw [if_pos h1] at h; exact absurd h (by simp)
  · refine ⟨h1, fun e h2 he => ?_⟩
    rw [if_neg h1, if_pos h2, he] at h
    have h' : (if p < e.right then some (lower_bound m p - 1) else none)
        = (none : Option Nat) := h
    by_cases h3 : p < e.right
    · rw [if_pos h3] at h'; exact absurd h' (by simp)
    · omega

theorem locate_some_contains {m : List (Entry V)} (hm : Invariant m) {p : Int}
    {j : Nat} (h : locate m p = some j) :
    ∃ e, m[j]? = some e ∧ e.left ≤ p ∧ p < e.right := by
  obtain ⟨e, he, hc⟩ := locate_eq_some h
  refine ⟨e, he, ?_⟩
  rcases hc with ⟨_, hl⟩ | ⟨_, hl, hr⟩
  · exact ⟨le_of_eq hl, hl ▸ hm.valid he⟩
  · exact ⟨le_of_lt hl, hr⟩

theorem locate_none_not_contains {m : List (Entry V)} (hm : Invariant m)
    {p : Int} (h : locate m p = none) :
    ∀ e ∈ m, ¬(e.left ≤ p ∧ p < e.right) := by
  intro e he ⟨hle, hlt⟩
  obtain ⟨j, hj⟩ := List.mem_iff_getElem?.mp he
  obtain ⟨h1, h2⟩ := locate_eq_none h
  rcases Nat.lt_trichotomy j (lower_bound m p) with hcase | hcase | hcase
  · -- e lies strictly before the lower bound: its right end is at most p
    rcases Nat.lt_or_ge (j + 1) (lower_bound m p) with hj1 | hj1
    · -- strictly before the predecessor of the lower bound
      have hlb : 0 < lower_bound m p := by omega
      have hlen : lower_bound m p - 1 < m.length := by
        have := lower_bound_le_length m p
        rcases Nat.lt_or_ge (lower_bound m p - 1) m.length with h' | h'
        · exact h'
        · omega
      obtain ⟨f, hf⟩ : ∃ f, m[lower_bound m p - 1]? = some f :=
        ⟨m.get ⟨lower_bound m p - 1, hlen⟩, List.getElem?_eq_getElem hlen⟩
      have hrel := hm.disjRel (by omega : j < lower_bound m p - 1) hj hf
      have hfr := h2 f hlb hf
      have hfv := hm.valid hf
      omega
    · -- e is exactly the predecessor of the lower bound
      have hj' : j = lower_bound m p - 1 := by omega
      have := h2 e (by omega) (hj' ▸ hj)
      omega
  · -- e is the lower bound entry itself: then p ≤ e.left but e.left ≠ p
    have hle' := le_left_of_lower_bound (hcase ▸ hj)
    have : (m[lower_bound m p]?).map Entry.left = some e.left := by
      rw [← hcase, hj]; rfl
    have hne : e.left ≠ p := fun hcontra => h1 (by rw [this, hcontra])
    omega
  · -- e lies strictly after the lower bound entry
    have hlen : lower_bound m p < m.length := by
      rcases Nat.lt_or_ge (lower_bound m p) m.length with h' | h'
      · exact h'
      · have := List.getElem?_eq_none (l := m) (n := j)
        rw [hj] at this
        have hjlen : j < m.length := by
          by_contra hc
          simp [List.getElem?_eq_none (by omega : m.length ≤ j)] at hj
        omega
    obtain ⟨d, hd⟩ : ∃ d, m[lower_bound m p]? = some d :=
      ⟨m.get ⟨lower_bound m p, hlen⟩, List.getElem?_eq_getElem hlen⟩
    have hdl := le_left_of_lower_bound hd
    have hrel := hm.disjRel hcase hd hj
    have hdv := hm.valid hd
    omega

theorem contains_unique {m : List (Entry V)} (hm : Invariant m) {p : Int}
    {i j : Nat} {e f : Entry V} (hi : m[i]? = some e) (hj : m[j]? = some f)
    (hce : e.left ≤ p ∧ p < e.right) (hcf : f.left ≤ p ∧ p < f.right) :
    i = j ∧ e = f := by
  rcases Nat.lt_trichotomy i j with hcase | hcase | hcase
  · have := hm.disjRel hcase hi hj; omega
  · subst hcase; rw [hi] at hj; exact ⟨rfl, by injection hj⟩
  · have := hm.disjRel hcase hj hi; omega

/-! ### `emplace` and `inject`: failure shape and fit analysis -/

theorem emplace_shape (m : List (Entry V)) (l r : Int) (v : V) :
    (emplace m l r v).2 = true ∨ emplace m l r v = (m, false) := by
  unfold emplace
  split
  · exact Or.inr rfl
  · exact Or.inl rfl

theorem emplace_false {m : List (Entry V)} {l r : Int} {v : V}
    (h : (emplace m l r v).2 = false) : (emplace m l r v).1 = m := by
  rcases emplace_shape m l r v with h' | h'
  · rw [h'] at h; cases h
  · rw [h']

theorem mem_emplace_of_mem {m : List (Entry V)} {l r : Int} {v : V}
    {x : Entry V} (hx : x ∈ m) : x ∈ (emplace m l r v).1 := by
  unfold emplace
  split
  · exact hx
  · rw [← List.takeWhile_append_dropWhile
      (p := fun e => decide (e.left < l)) (l := m)] at hx
    rcases List.mem_append.mp hx with h | h
    · exact List.mem_append.mpr (Or.inl h)
    · exact List.mem_append.mpr (Or.inr (List.mem_cons_of_mem _ h))

theorem inject_false_shape (m : List (Entry V)) (l r : Int) (v : V) :
    (inject m l r v).2 = true ∨ inject m l r v = (m, false) := by
  unfold inject inject_left inject_right
  repeat' split
  all_goals first
    | exact Or.inl rfl
    | exact Or.inr rfl
    | exact emplace_shape m l r v

theorem inject_success_fits {m : List (Entry V)} {l r : Int} {v : V}
    (h : (inject m l r v).2 = true) (hne : m.isEmpty = false) :
    ∃ i ei, m[i]? = some ei ∧
      (fits_left_check m i ei l r = true ∨ fits_right_check m i ei l r = true) := by
  unfold inject at h
  split at h
  · simp at h
  · split at h
    · simp_all
    · split at h
      · simp at h
      · rename_i ei hei
        split at h
        · exact ⟨adjust m l, ei, hei, Or.inl (by assumption)⟩
        · split at h
          · exact ⟨adjust m l, ei, hei, Or.inr (by assumption)⟩
          · simp at h

theorem fits_left_interp {m : List (Entry V)} {i : Nat} {ei : Entry V}
    {l r : Int} (h : fits_left_check m i ei l r = true) :
    r ≤ ei.left ∧ (0 < i → ∀ d, m[i - 1]? = some d → d.right ≤ l) := by
  unfold fits_left_check prev_entry at h
  rw [Bool.and_eq_true] at h
  refine ⟨by simpa using h.1, fun hi d hd => ?_⟩
  have h2 := h.2
  rw [if_neg (by omega), hd] at h2
  simpa using h2

theorem fits_right_interp {m : List (Entry V)} {i : Nat} {ei : Entry V}
    {l r : Int} (h : fits_right_check m i ei l r = true) :
    ei.right ≤ l ∧ (∀ d, m[i + 1]? = some d → r ≤ d.left) := by
  unfold fits_right_check at h
  rw [Bool.and_eq_true] at h
  refine ⟨by simpa using h.1, fun d hd => ?_⟩
  have h2 := h.2
  rw [hd] at h2
  simpa using h2

/-- If the new interval fits strictly to the left of entry `i` then no
stored interval meets the open content of `[l, r)`. -/
theorem fits_left_no_overlap {m : List (Entry V)} (hm : Invariant m)
    {i : Nat} {ei : Entry V} {l r : Int} (hei : m[i]? = some ei)
    (h1 : r ≤ ei.left) (h2 : 0 < i → ∀ d, m[i - 1]? = some d → d.right ≤ l) :
    ∀ e ∈ m, ¬(l < e.right ∧ e.left < r) := by
  intro e he ⟨hl, hr⟩
  obtain ⟨j, hj⟩ := List.mem_iff_getElem?.mp he
  rcases Nat.lt_or_ge j i with hji | hji
  · -- j < i: e ends at or before l
    have hi0 : 0 < i := by omega
    have hlen : i - 1 < m.length := by
      have := lt_length_of_getElem? hei; omega
    obtain ⟨d, hd⟩ : ∃ d, m[i - 1]? = some d :=
      ⟨m.get ⟨i - 1, hlen⟩, List.getElem?_eq_getElem hlen⟩
    have hdl := h2 hi0 d hd
    rcases Nat.lt_or_ge j (i - 1) with hji' | hji'
    · have hrel := hm.disjRel hji' hj hd
      have hdv := hm.valid hd
      omega
    · have hj' : j = i - 1 := by omega
      rw [hj', hd] at hj
      have hde : d = e := by injection hj
      subst hde
      omega
  · -- i ≤ j: e starts at or after r
    rcases Nat.eq_or_lt_of_le hji with hji' | hji'
    · rw [← hji', hei] at hj
      have hee : ei = e := by injection hj
      subst hee
      omega
    · have hrel := hm.disjRel hji' hei hj
      have hev := hm.valid hei
      omega

/-- If the new interval fits strictly to the right of entry `i` then no
stored interval meets the open content of `[l, r)`. -/
theorem fits_right_no_overlap {m : List (Entry V)} (hm : Invariant m)
    {i : Nat} {ei : Entry V} {l r : Int} (hei : m[i]? = some ei)
    (h1 : ei.right ≤ l) (h2 : ∀ d, m[i + 1]? = some d → r ≤ d.left) :
    ∀ e ∈ m, ¬(l < e.right ∧ e.left < r) := by
  intro e he ⟨hl, hr⟩
  obtain ⟨j, hj⟩ := List.mem_iff_getElem?.mp he
  rcases Nat.lt_or_ge j (i + 1) with hji | hji
  · -- j ≤ i: e ends at or before l
    rcases Nat.lt_or_ge j i with hji' | hji'
    · have hrel := hm.disjRel hji' hj hei
      have hev := hm.valid hei
      omega
    · have hj' : j = i := by omega
      rw [hj', hei] at hj
      have hee : ei = e := by injection hj
      subst hee
      omega
  · -- i < j: e starts at or after r
    have hlen : j < m.length := lt_length_of_getElem? hj
    have hlen' : i + 1 < m.length := by omega
    obtain ⟨d, hd⟩ : ∃ d, m[i + 1]? = some d :=
      ⟨m.get ⟨i + 1, hlen'⟩, List.getElem?_eq_getElem hlen'⟩
    have hdl := h2 d hd
    rcases Nat.eq_or_lt_of_le hji with hji' | hji'
    · rw [← hji', hd] at hj
      have hde : d = e := by injection hj
      subst hde
      omega
    · have hrel := hm.disjRel hji' hd hj
      have hdv := hm.valid hd
      omega

/-- C5: `inject` rejects, with no mutation, any range reaching into the
interior of a stored interval, as well as invalid ranges.  The first
conjunct shows a failed `inject` never mutates the map (for any state at
all); the second shows every interior overlap, and every `r ≤ l`, fails. -/
theorem inject_fail_no_mutation (m : List (Entry V)) (l r : Int) (v : V) :
    ((inject m l r v).2 = false → (inject m l r v).1 = m) ∧
      (Invariant m → (r ≤ l ∨ ∃ e ∈ m, l < e.right ∧ e.left < r) →
        (inject m l r v).2 = false) := by
  constructor
  · intro h
    rcases inject_false_shape m l r v with h' | h'
    · rw [h'] at h; cases h
    · rw [h']
  · intro hm hover
    by_contra hcon
    have hsucc : (inject m l r v).2 = true := by
      cases h : (inject m l r v).2
      · exact absurd h hcon
      · rfl
    rcases hover with hrl | ⟨e, he, he1, he2⟩
    · unfold inject at hsucc
      rw [if_pos hrl] at hsucc
      cases hsucc
    · have hne : m.isEmpty = false := by
        cases m with
        | nil => cases he
        | cons a t => rfl
      obtain ⟨i, ei, hei, hfit⟩ := inject_success_fits hsucc hne
      rcases hfit with hf | hf
      · obtain ⟨h1, h2⟩ := fits_left_interp hf
        exact fits_left_no_overlap hm hei h1 h2 e he ⟨he1, he2⟩
      · obtain ⟨h1, h2⟩ := fits_right_interp hf
        exact fits_right_no_overlap hm hei h1 h2 e he ⟨he1, he2⟩

/-- Witness for C5 at the spec's own example: `inject(5, 15, v)` over a map
holding only `[0, 10) -> "A"` fails and leaves the map unchanged. -/
theorem inject_fail_no_mutation_witness :
    (inject [(⟨0, 10, "A"⟩ : Entry String)] 5 15 "X").2 = false ∧
      (inject [(⟨0, 10, "A"⟩ : Entry String)] 5 15 "X").1
        = [(⟨0, 10, "A"⟩ : Entry String)] := by
  have h := inject_fail_no_mutation [(⟨0, 10, "A"⟩ : Entry String)] 5 15 "X"
  have hinv : Invariant [(⟨0, 10, "A"⟩ : Entry String)] := by
    constructor
    · intro e he
      rw [List.mem_singleton] at he
      rw [he]
      decide
    · exact List.pairwise_singleton _ _
  have hf := h.2 hinv
    (Or.inr ⟨⟨0, 10, "A"⟩, List.mem_singleton_self _, by decide, by decide⟩)
  exact ⟨hf, h.1 hf⟩

/-! ### The `erase(l, r)` splitting bug and its consequences (C1, C2, C3) -/

/-- C1: the disjointness/validity invariant is violated on a reachable
state.  Starting empty, `insert(5, 20, "A")` then `erase(5, 10)` leaves the
degenerate entry `[5, 5)` stored (the containment-split case shrinks the
right endpoint to `l` even when `l` equals the entry's left endpoint), so a
state reachable through the public API stores an interval with
`left = right`, contradicting the claimed `left < right` invariant. -/
theorem reachable_invariant_violation :
    Reach ([⟨5, 5, "A"⟩, ⟨10, 20, "A"⟩] : List (Entry String)) ∧
      ¬(∀ e ∈ ([⟨5, 5, "A"⟩, ⟨10, 20, "A"⟩] : List (Entry String)),
          e.left < e.right) := by
  constructor
  · have h1 : (insert ([] : List (Entry String)) 5 20 "A").1
        = [⟨5, 20, "A"⟩] := by decide
    have h2 : erase_range [(⟨5, 20, "A"⟩ : Entry String)] 5 10
        = [⟨5, 5, "A"⟩, ⟨10, 20, "A"⟩] := by decide
    have r1 : Reach ((insert ([] : List (Entry String)) 5 20 "A").1) :=
      Reach.ins _ _ _ _ Reach.empty
    rw [h1] at r1
    have r2 : Reach (erase_range [(⟨5, 20, "A"⟩ : Entry String)] 5 10) :=
      Reach.erg _ _ _ r1
    rw [h2] at r2
    exact r2
  · intro hall
    have h5 := hall ⟨5, 5, "A"⟩ (List.mem_cons_self _ _)
    simp at h5

/-- C2: after `erase(5, 10)` on the reachable state `{[5, 20) -> "A"}`,
the point `5` lies in `[5, 10)` yet `lookup(5)` still returns `"A"` (the
degenerate leftover entry `[5, 5)` matches `locate`'s key-equality test),
contradicting the claim that every point of `[l, r)` is cleared. -/
theorem erase_range_lookup_bug :
    insert ([] : List (Entry String)) 5 20 "A" = ([⟨5, 20, "A"⟩], true) ∧
      ((5 : Int) ≤ 5 ∧ (5 : Int) < 10) ∧
      lookup (erase_range [(⟨5, 20, "A"⟩ : Entry String)] 5 10) 5
        = some "A" := by
  refine ⟨by decide, by omega, by decide⟩

/-- C3: `erase(5, 10)` is not idempotent on the reachable state
`{[5, 20) -> "A"}`: the first call leaves the degenerate entry `[5, 5)`,
which the second call then deletes, so the two results differ. -/
theorem erase_range_not_idempotent :
    erase_range (erase_range [(⟨5, 20, "A"⟩ : Entry String)] 5 10) 5 10
      ≠ erase_range [(⟨5, 20, "A"⟩ : Entry String)] 5 10 := by decide

/-! ### C6: the `inject` merge examples -/

/-- C6: starting empty, `inject(0, 10, "A")` then `inject(10, 20, "A")`
fuses touching equal-valued intervals into the single entry
`[0, 20) -> "A"`, while `inject(10, 20, "B")` instead stores the two
entries `[0, 10) -> "A"` and `[10, 20) -> "B"`. -/
theorem inject_merge_examples :
    inject (inject ([] : List (Entry String)) 0 10 "A").1 10 20 "A"
        = ([⟨0, 20, "A"⟩], true) ∧
      inject (inject ([] : List (Entry String)) 0 10 "A").1 10 20 "B"
        = ([⟨0, 10, "A"⟩, ⟨10, 20, "B"⟩], true) :=
  ⟨by decide, by decide⟩

/-! ### C4: the strict `insert` -/

theorem insert_false_shape (m : List (Entry V)) (l r : Int) (v : V) :
    (insert m l r v).2 = true ∨ insert m l r v = (m, false) := by
  unfold insert
  repeat' split
  all_goals first
    | exact Or.inl rfl
    | exact Or.inr rfl
    | exact emplace_shape m l r v

/-- C4: `insert(l, r, v)` succeeds exactly when `l < r`, no stored interval
contains `l`, and every stored entry starting at or after `l` starts at or
after `r`; on success the map gains exactly the entry `[l, r) -> v` in key
order (no neighbour is merged or modified), and on failure the map is
unchanged. -/
theorem insert_spec (m : List (Entry V)) (l r : Int) (v : V)
    (hm : Invariant m) :
    ((insert m l r v).2 = true ↔
      (l < r ∧ (∀ e ∈ m, ¬(e.left ≤ l ∧ l < e.right)) ∧
        (∀ e ∈ m, l ≤ e.left → r ≤ e.left)))
    ∧ ((insert m l r v).2 = true →
        (insert m l r v).1
          = m.takeWhile (fun e => decide (e.left < l)) ++
              ⟨l, r, v⟩ :: m.dropWhile (fun e => decide (e.left < l))
        ∧ (insert m l r v).1.length = m.length + 1
        ∧ (∀ x, x ∈ (insert m l r v).1 ↔ (x ∈ m ∨ x = ⟨l, r, v⟩)))
    ∧ ((insert m l r v).2 = false → (insert m l r v).1 = m) := by
  have hkey : (locate m l).isNone = true →
      (m.any fun e => decide (e.left = l)) = false := by
    intro hloc
    rw [Bool.eq_false_iff]
    intro hany
    obtain ⟨e, he, hel⟩ := List.any_eq_true.mp hany
    have hel' : e.left = l := of_decide_eq_true hel
    have hnone : locate m l = none := Option.isNone_iff_eq_none.mp hloc
    exact locate_none_not_contains hm hnone e he
      ⟨le_of_eq hel', hel' ▸ hm.1 e he⟩
  have hmain : (insert m l r v).2 = true ↔
      (l < r ∧ (∀ e ∈ m, ¬(e.left ≤ l ∧ l < e.right)) ∧
        (∀ e ∈ m, l ≤ e.left → r ≤ e.left)) := by
    constructor
    · intro h
      unfold insert at h
      split at h
      · cases h
      · rename_i hrl
        split at h
        · rename_i hcond
          rw [Bool.and_eq_true] at hcond
          have hnone : locate m l = none :=
            Option.isNone_iff_eq_none.mp hcond.1
          refine ⟨by omega, locate_none_not_contains hm hnone, ?_⟩
          intro e he hle
          obtain ⟨j, hj⟩ := List.mem_iff_getElem?.mp he
          have hjlb : lower_bound m l ≤ j := by
            by_contra hc
            have hlt := left_lt_of_lt_lower_bound
              (m := m) (p := l) (j := j) (by omega) hj
            omega
          have hlb_len : lower_bound m l < m.length := by
            have := lt_length_of_getElem? hj
            omega
          obtain ⟨d, hd⟩ : ∃ d, m[lower_bound m l]? = some d :=
            ⟨m.get ⟨lower_bound m l, hlb_len⟩, List.getElem?_eq_getElem hlb_len⟩
          have hall := hcond.2
          rw [hd] at hall
          have hrd : r ≤ d.left := by simpa using hall
          rcases Nat.eq_or_lt_of_le hjlb with hj' | hj'
          · rw [← hj', hd] at hj
            have hde : d = e := by injection hj
            subst hde
            omega
          · have := hm.disjRel hj' hd hj
            have := hm.valid hd
            omega
        · cases h
    · intro ⟨hlr, hnocont, hafter⟩
      unfold insert
      rw [if_neg (by omega)]
      have hnone : locate m l = none := by
        cases hloc : locate m l with
        | none => rfl
        | some j =>
          obtain ⟨e, he, hc1, hc2⟩ := locate_some_contains hm hloc
          exact absurd ⟨hc1, hc2⟩ (hnocont e (mem_of_getElem? he))
      have hall : (m[lower_bound m l]?).all (fun e => decide (r ≤ e.left))
          = true := by
        cases hd : m[lower_bound m l]? with
        | none => rfl
        | some d =>
          have hld := le_left_of_lower_bound hd
          simpa using hafter d (mem_of_getElem? hd) hld
      rw [if_pos (by rw [hnone, hall]; rfl : ((locate m l).isNone &&
        (m[lower_bound m l]?).all (fun e => decide (r ≤ e.left))) = true)]
      unfold emplace
      rw [if_neg ?hcc]
      case hcc =>
        intro hc
        have := hkey (by rw [hnone]; rfl)
        rw [this] at hc
        cases hc
  refine ⟨hmain, ?_, ?_⟩
  · intro h
    have hcons := hmain.mp h
    unfold insert at h ⊢
    rw [if_neg (by omega)] at h ⊢
    split at h
    · rename_i hcond
      rw [if_pos hcond]
      rw [Bool.and_eq_true] at hcond
      unfold emplace
      rw [if_neg (by rw [hkey hcond.1]; intro hc; cases hc)]
      refine ⟨rfl, ?_, ?_⟩
      · have := List.takeWhile_append_dropWhile
          (p := fun e => decide (e.left < l)) (l := m)
        have hlen : (m.takeWhile (fun e => decide (e.left < l))).length +
            (m.dropWhile (fun e => decide (e.left < l))).length
              = m.length := by
          rw [← List.length_append, this]
        simp [List.length_append]
        omega
      · intro x
        constructor
        · intro hx
          rcases List.mem_append.mp hx with hx | hx
          · exact Or.inl (by
              rw [← List.takeWhile_append_dropWhile
                (p := fun e => decide (e.left < l)) (l := m)]
              exact List.mem_append.mpr (Or.inl hx))
          · rcases List.mem_cons.mp hx with hx | hx
            · exact Or.inr hx
            · exact Or.inl (by
                rw [← List.takeWhile_append_dropWhile
                  (p := fun e => decide (e.left < l)) (l := m)]
                exact List.mem_append.mpr (Or.inr hx))
        · intro hx
          rcases hx with hx | hx
          · rw [← List.takeWhile_append_dropWhile
              (p := fun e => decide (e.left < l)) (l := m)] at hx
            rcases List.mem_append.mp hx with hx | hx
            · exact List.mem_append.mpr (Or.inl hx)
            · exact List.mem_append.mpr
                (Or.inr (List.mem_cons_of_mem _ hx))
          · exact List.mem_append.mpr (Or.inr (by rw [hx]; exact List.mem_cons_self _ _))
    · cases h
  · intro h
    rcases insert_false_shape m l r v with h' | h'
    · rw [h'] at h; cases h
    · rw [h']

/-- Witness for C4: inserting `[10, 20) -> "B"` next to `[0, 10) -> "A"`
succeeds, does not merge with the touching neighbour, and produces exactly
the two entries. -/
theorem insert_spec_witness :
    (insert [(⟨0, 10, "A"⟩ : Entry String)] 10 20 "B").2 = true ∧
      (insert [(⟨0, 10, "A"⟩ : Entry String)] 10 20 "B").1
        = [⟨0, 10, "A"⟩, ⟨10, 20, "B"⟩] := by
  have h := insert_spec [(⟨0, 10, "A"⟩ : Entry String)] 10 20 "B"
    ⟨by decide, by decide⟩
  have hs : (insert [(⟨0, 10, "A"⟩ : Entry String)] 10 20 "B").2 = true :=
    h.1.mpr ⟨by decide, by decide, by decide⟩
  refine ⟨hs, ?_⟩
  rw [(h.2.1 hs).1]
  decide

/-! ### C9: point erasure -/

/-- C9: `erase(p)` removes exactly the entry whose interval contains `p`
and returns `true` when such an entry exists; otherwise it returns `false`
and leaves the map unchanged. -/
theorem erase_point_spec (m : List (Entry V)) (p : Int) (hm : Invariant m) :
    ((∀ e ∈ m, ¬(e.left ≤ p ∧ p < e.right)) → erase m p = (m, false)) ∧
      (∀ e ∈ m, e.left ≤ p → p < e.right →
        (erase m p).2 = true ∧
          ∃ i, m[i]? = some e ∧ (erase m p).1 = m.eraseIdx i) := by
  unfold erase
  cases hloc : locate m p with
  | none =>
    refine ⟨fun _ => rfl, fun e he h1 h2 => ?_⟩
    exact absurd ⟨h1, h2⟩ (locate_none_not_contains hm hloc e he)
  | some j =>
    obtain ⟨e', he', hc1, hc2⟩ := locate_some_contains hm hloc
    constructor
    · intro hno
      exact absurd ⟨hc1, hc2⟩ (hno e' (mem_of_getElem? he'))
    · intro e he h1 h2
      obtain ⟨k, hk⟩ := List.mem_iff_getElem?.mp he
      obtain ⟨hkj, hee⟩ := contains_unique hm hk he' ⟨h1, h2⟩ ⟨hc1, hc2⟩
      exact ⟨rfl, j, by rw [← hee] at he'; exact he', rfl⟩

/-- Witness for C9 at the spec's example: on
`{[0,10) -> "A", [10,20) -> "B"}`, `erase(5)` succeeds and removes exactly
`[0, 10) -> "A"`; `erase(25)` fails and leaves the map unchanged. -/
theorem erase_point_spec_witness :
    (erase [(⟨0, 10, "A"⟩ : Entry String), ⟨10, 20, "B"⟩] 5).2 = true ∧
      (erase [(⟨0, 10, "A"⟩ : Entry String), ⟨10, 20, "B"⟩] 25)
        = ([⟨0, 10, "A"⟩, ⟨10, 20, "B"⟩], false) := by
  constructor
  · exact ((erase_point_spec [(⟨0, 10, "A"⟩ : Entry String), ⟨10, 20, "B"⟩]
      5 ⟨by decide, by decide⟩).2 ⟨0, 10, "A"⟩ (by decide) (by decide)
      (by decide)).1
  · exact (erase_point_spec [(⟨0, 10, "A"⟩ : Entry String), ⟨10, 20, "B"⟩]
      25 ⟨by decide, by decide⟩).1 (by decide)

/-! ### C10: `find` -/

/-- C10: for a point inside a stored interval `[a, b)` with value `v`,
`find` returns `(a, b, v)`; for an uncovered point it returns the fixed
sentinel `(0, 0, absent)`. -/
theorem find_spec (m : List (Entry V)) (p : Int) (hm : Invariant m) :
    (∀ e ∈ m, e.left ≤ p → p < e.right →
      find m p = (e.left, e.right, some e.val)) ∧
      ((∀ e ∈ m, ¬(e.left ≤ p ∧ p < e.right)) → find m p = (0, 0, none)) := by
  unfold find
  cases hloc : locate m p with
  | none =>
    refine ⟨fun e he h1 h2 => ?_, fun _ => rfl⟩
    exact absurd ⟨h1, h2⟩ (locate_none_not_contains hm hloc e he)
  | some j =>
    obtain ⟨e', he', hc1, hc2⟩ := locate_some_contains hm hloc
    constructor
    · intro e he h1 h2
      obtain ⟨k, hk⟩ := List.mem_iff_getElem?.mp he
      obtain ⟨hkj, hee⟩ := contains_unique hm hk he' ⟨h1, h2⟩ ⟨hc1, hc2⟩
      rw [← hee] at he'
      have hgoal : (match m[j]? with
          | some e => (e.left, e.right, some e.val)
          | none => ((0 : Int), (0 : Int), (none : Option V)))
            = (e.left, e.right, some e.val) := by rw [he']
      exact hgoal
    · intro hno
      exact absurd ⟨hc1, hc2⟩ (hno e' (mem_of_getElem? he'))

/-- Witness for C10: on `{[3, 7) -> "A"}`, `find(5)` reports
`(3, 7, "A")` and `find(9)` reports the sentinel `(0, 0, absent)`. -/
theorem find_spec_witness :
    find [(⟨3, 7, "A"⟩ : Entry String)] 5 = (3, 7, some "A") ∧
      find [(⟨3, 7, "A"⟩ : Entry String)] 9 = (0, 0, none) :=
  ⟨(find_spec [(⟨3, 7, "A"⟩ : Entry String)] 5 ⟨by decide, by decide⟩).1
      ⟨3, 7, "A"⟩ (by decide) (by decide) (by decide),
    (find_spec [(⟨3, 7, "A"⟩ : Entry String)] 9 ⟨by decide, by decide⟩).2
      (by decide)⟩

/-! ### List utilities for the `erase(l, r)` scan -/

theorem filter_length_lt {s : List (Entry V)} {p : Entry V → Bool}
    {x : Entry V} (hx : x ∈ s) (hp : p x = false) :
    (s.filter p).length < s.length := by
  induction s with
  | nil => cases hx
  | cons a t ih =>
    rw [List.filter_cons]
    rcases List.mem_cons.mp hx with h | h
    · subst h
      rw [if_neg (by rw [hp]; exact Bool.false_ne_true)]
      have := List.length_filter_le p t
      simp only [List.length_cons]
      omega
    · by_cases ha : p a = true
      · rw [if_pos ha]
        simp only [List.length_cons]
        exact Nat.succ_lt_succ (ih h)
      · rw [if_neg ha]
        simp only [List.length_cons]
        have := ih h
        omega

theorem filter_length_mono {s : List (Entry V)} {p q : Entry V → Bool}
    (h : ∀ x ∈ s, q x = true → p x = true) :
    (s.filter q).length ≤ (s.filter p).length := by
  induction s with
  | nil => simp
  | cons a t ih =>
    rw [List.filter_cons, List.filter_cons]
    have iht := ih (fun x hx => h x (List.mem_cons_of_mem _ hx))
    by_cases hq : q a = true
    · rw [if_pos hq, if_pos (h a (List.mem_cons_self _ _) hq)]
      simpa using iht
    · rw [if_neg hq]
      by_cases hp : p a = true
      · rw [if_pos hp]
        simp only [List.length_cons]
        omega
      · rw [if_neg hp]
        exact iht

theorem mem_eraseIdx_of_ne {m : List (Entry V)} {i : Nat} {d e0 : Entry V}
    (hd : m[i]? = some d) (he0 : e0 ∈ m) (hne : e0 ≠ d) :
    e0 ∈ m.eraseIdx i := by
  obtain ⟨j, hj⟩ := List.mem_iff_getElem?.mp he0
  have hij : j ≠ i := by
    intro hc
    rw [hc, hd] at hj
    have hde : d = e0 := by injection hj
    exact hne hde.symm
  rcases Nat.lt_or_ge j i with h | h
  · exact List.mem_iff_getElem?.mpr
      ⟨j, by rw [List.getElem?_eraseIdx, if_pos h]; exact hj⟩
  · refine List.mem_iff_getElem?.mpr ⟨j - 1, ?_⟩
    rw [List.getElem?_eraseIdx, if_neg (by omega)]
    have hj1 : j - 1 + 1 = j := by omega
    rw [hj1]
    exact hj

theorem mem_set_of_ne {m : List (Entry V)} {i : Nat} {d e0 x : Entry V}
    (hd : m[i]? = some d) (he0 : e0 ∈ m) (hne : e0 ≠ d) :
    e0 ∈ m.set i x := by
  obtain ⟨j, hj⟩ := List.mem_iff_getElem?.mp he0
  have hij : i ≠ j := by
    intro hc
    rw [← hc, hd] at hj
    have hde : d = e0 := by injection hj
    exact hne hde.symm
  exact List.mem_iff_getElem?.mpr
    ⟨j, by rw [List.getElem?_set_ne hij]; exact hj⟩

theorem mem_erase_key_of_ne {m : List (Entry V)} {k : Int} {e0 : Entry V}
    (he0 : e0 ∈ m) (hne : e0.left ≠ k) : e0 ∈ erase_key m k := by
  unfold erase_key
  exact (List.mem_eraseP_of_neg (by simp [hne])).mpr he0

theorem self_mem_emplace {m : List (Entry V)} {l r : Int} {v : V}
    (h : ∀ e ∈ m, e.left ≠ l) :
    (⟨l, r, v⟩ : Entry V) ∈ (emplace m l r v).1 := by
  unfold emplace
  rw [if_neg ?hc]
  case hc =>
    intro hc
    obtain ⟨e, he, he'⟩ := List.any_eq_true.mp hc
    exact h e he (of_decide_eq_true he')
  exact List.mem_append.mpr (Or.inr (List.mem_cons_self _ _))

theorem getElem_unique {m : List (Entry V)} (h : SortedValid m) {i j : Nat}
    {e : Entry V} (hi : m[i]? = some e) (hj : m[j]? = some e) : i = j := by
  rcases Nat.lt_trichotomy i j with hc | hc | hc
  · have := (h.ordRel hc hi hj).2; omega
  · exact hc
  · have := (h.ordRel hc hj hi).2; omega

theorem left_unique {m : List (Entry V)} (h : SortedValid m) {a b : Entry V}
    (ha : a ∈ m) (hb : b ∈ m) (hab : a.left = b.left) : a = b := by
  obtain ⟨i, hi⟩ := List.mem_iff_getElem?.mp ha
  obtain ⟨j, hj⟩ := List.mem_iff_getElem?.mp hb
  rcases Nat.lt_trichotomy i j with hc | hc | hc
  · have := (h.ordRel hc hi hj).2; omega
  · rw [hc, hj] at hi
    exact (by injection hi : b = a).symm
  · have := (h.ordRel hc hj hi).2; omega

theorem SortedValid.eraseIdx {m : List (Entry V)} (h : SortedValid m)
    (i : Nat) : SortedValid (m.eraseIdx i) :=
  ⟨fun e he => h.1 e ((List.eraseIdx_sublist m i).subset he),
   List.Pairwise.sublist (List.eraseIdx_sublist m i) h.2⟩

theorem SortedValid.set_shrink {m : List (Entry V)} (h : SortedValid m)
    {i : Nat} {e : Entry V} (he : m[i]? = some e) {x : Int} {w : V}
    (h1 : e.left ≤ x) (h2 : x ≤ e.right) :
    SortedValid (m.set i ⟨e.left, x, w⟩) := by
  constructor
  · intro d hd
    rcases List.mem_or_eq_of_mem_set hd with h' | h'
    · exact h.1 d h'
    · rw [h']
      exact h1
  · rw [List.pairwise_iff_getElem]
    intro a b ha hb hab
    have hla := ha; have hlb := hb
    rw [List.length_set] at hla hlb
    have hga := List.getElem?_eq_getElem (l := m.set i ⟨e.left, x, w⟩) ha
    have hgb := List.getElem?_eq_getElem (l := m.set i ⟨e.left, x, w⟩) hb
    by_cases hia : i = a
    · subst hia
      rw [List.getElem?_set_eq hla] at hga
      rw [List.getElem?_set_ne (by omega)] at hgb
      have hrel := h.ordRel (by omega : i < b) he hgb
      have hed : (⟨e.left, x, w⟩ : Entry V)
          = (m.set i ⟨e.left, x, w⟩).get ⟨i, ha⟩ := by injection hga
      rw [List.get_eq_getElem] at hed
      rw [← hed]
      exact ⟨by dsimp; omega, by dsimp; omega⟩
    · rw [List.getElem?_set_ne hia] at hga
      by_cases hib : i = b
      · subst hib
        rw [List.getElem?_set_eq hlb] at hgb
        have hrel := h.ordRel (by omega : a < i) hga he
        have hed : (⟨e.left, x, w⟩ : Entry V)
            = (m.set i ⟨e.left, x, w⟩).get ⟨i, hb⟩ := by injection hgb
        rw [List.get_eq_getElem] at hed
        rw [← hed]
        exact ⟨by dsimp; omega, by dsimp; omega⟩
      · rw [List.getElem?_set_ne hib] at hgb
        exact h.ordRel hab hga hgb

theorem set_right_eq {m : List (Entry V)} {i : Nat} {e : Entry V} {x : Int}
    (he : m[i]? = some e) : set_right m i x = m.set i ⟨e.left, x, e.val⟩ := by
  unfold set_right
  rw [he]

theorem filter_length_eraseIdx {m : List (Entry V)} {i : Nat} {e : Entry V}
    (he : m[i]? = some e) {p : Entry V → Bool} (hp : p e = true) :
    ((m.eraseIdx i).filter p).length + 1 = (m.filter p).length := by
  obtain ⟨hlen, hval⟩ := List.getElem?_eq_some.mp he
  have hm : m = m.take i ++ e :: m.drop (i + 1) := by
    conv_lhs => rw [← List.take_append_drop i m]
    rw [List.drop_eq_getElem_cons hlen, hval]
  rw [List.eraseIdx_eq_take_drop_succ]
  conv_rhs => rw [hm]
  rw [List.filter_append, List.filter_append, List.filter_cons, if_pos hp]
  simp only [List.length_append, List.length_cons]
  omega

/-! ### Properties of the scan candidate -/

theorem cand_before {m : List (Entry V)} (h : SortedValid m) {nl : Int}
    {e : Entry V} (he : m[candidate m nl]? = some e) :
    ∀ j d, j < candidate m nl → m[j]? = some d → d.right ≤ nl := by
  intro j d hj hd
  cases hloc : locate m nl with
  | some jj =>
    simp only [candidate, hloc] at he hj
    obtain ⟨e', he', hshape⟩ := locate_eq_some hloc
    rw [he] at he'
    have hee : e = e' := by injection he'
    subst hee
    rcases hshape with ⟨-, hl⟩ | ⟨-, hl, -⟩
    · have := (h.ordRel hj hd he).1
      omega
    · have := (h.ordRel hj hd he).1
      omega
  | none =>
    simp only [candidate, hloc] at he hj
    obtain ⟨-, h2⟩ := locate_eq_none hloc
    have hlb : 0 < lower_bound m nl := by omega
    rcases Nat.lt_or_ge j (lower_bound m nl - 1) with hj' | hj'
    · have hlen : lower_bound m nl - 1 < m.length := by
        have h1 := lower_bound_le_length m nl
        omega
      obtain ⟨f, hf⟩ : ∃ f, m[lower_bound m nl - 1]? = some f :=
        ⟨m.get ⟨lower_bound m nl - 1, hlen⟩, List.getElem?_eq_getElem hlen⟩
      have hrel := (h.ordRel hj' hd hf).1
      have hfw := h.wide hf
      have hfr := h2 f hlb hf
      omega
    · have hj'' : j = lower_bound m nl - 1 := by omega
      exact h2 d hlb (hj'' ▸ hd)

theorem cand_phase2 {m : List (Entry V)} (h : SortedValid m) {l nl : Int}
    (hnl : l < nl) (hinv : ∀ e ∈ m, e.left < nl → e.right ≤ l)
    {e : Entry V} (he : m[candidate m nl]? = some e) :
    nl ≤ e.left ∧ candidate m nl = lower_bound m nl := by
  cases hloc : locate m nl with
  | some jj =>
    simp only [candidate, hloc] at he ⊢
    obtain ⟨e', he', hshape⟩ := locate_eq_some hloc
    rw [he] at he'
    have hee : e = e' := by injection he'
    subst hee
    rcases hshape with ⟨hj, hl⟩ | ⟨hj, hl, hr⟩
    · exact ⟨le_of_eq hl.symm, hj⟩
    · have := hinv e (mem_of_getElem? he) hl
      omega
  | none =>
    simp only [candidate, hloc] at he ⊢
    exact ⟨le_left_of_lower_bound he, trivial⟩

theorem cand_shapes {m : List (Entry V)} {nl : Int} {e : Entry V}
    (he : m[candidate m nl]? = some e) :
    nl ≤ e.left ∨ (e.left < nl ∧ nl < e.right) := by
  cases hloc : locate m nl with
  | some jj =>
    simp only [candidate, hloc] at he
    obtain ⟨e', he', hshape⟩ := locate_eq_some hloc
    rw [he] at he'
    have hee : e = e' := by injection he'
    subst hee
    rcases hshape with ⟨-, hl⟩ | ⟨-, hl, hr⟩
    · omega
    · exact Or.inr ⟨hl, hr⟩
  | none =>
    simp only [candidate, hloc] at he
    exact Or.inl (le_left_of_lower_bound he)

/-! ### `inject` after the containment split of `erase(l, r)` -/

/-- Behaviour of the `inject(r, orig_r, value)` call made by the
containment-split case of `erase(l, r)`: every entry starting at or after
`r` either survives untouched, or — when it starts exactly at the
re-injected remainder's right endpoint `orig_r` with an equal value — is
fused into an entry `[r, its right)` carrying its value. -/
theorem inject_after_split {m1 : List (Entry V)} (hsv : SortedValid m1)
    {i : Nat} {eS : Entry V} (hi : m1[i]? = some eS)
    {r b : Int} {w : V}
    (hSr : eS.right < r) (hrb : r < b)
    (h3 : ∀ j d, j ≤ i → m1[j]? = some d → d.left < r)
    (h4 : ∀ d, m1[i + 1]? = some d → b ≤ d.left)
    {e0 : Entry V} (he0 : e0 ∈ m1) (hr0 : r ≤ e0.left) :
    e0 ∈ (inject m1 r b w).1 ∨
      (⟨r, e0.right, e0.val⟩ : Entry V) ∈ (inject m1 r b w).1 := by
  have hlen := lt_length_of_getElem? hi
  have hne : m1.isEmpty = false := by
    cases m1 with
    | nil => simp at hlen
    | cons a t => rfl
  have hlb : lower_bound m1 r = i + 1 :=
    lower_bound_eq (by omega)
      (fun j hj d hd => h3 j d (by omega) hd)
      (fun d hd => le_of_lt (lt_of_lt_of_le hrb (h4 d hd)))
  have hadj : adjust m1 r = i := by
    unfold adjust
    rw [hlb]
    rw [if_pos ?hcond]
    case hcond =>
      cases hsucc : m1[i + 1]? with
      | none =>
        left
        by_contra hc
        have hlt : i + 1 < m1.length := by
          have := lower_bound_le_length m1 r
          omega
        rw [List.getElem?_eq_getElem hlt] at hsucc
        simp at hsucc
      | some en =>
        right
        refine ⟨by omega, ?_⟩
        have hbl := h4 en hsucc
        simp only [Option.map_some', ne_eq, Option.some.injEq]
        omega
    omega
  unfold inject
  rw [if_neg (by omega : ¬ b ≤ r),
    if_neg (by rw [hne]; exact Bool.false_ne_true)]
  simp only [hadj, hi]
  have hfl : fits_left_check m1 i eS r b = false := by
    unfold fits_left_check
    have hw := hsv.wide hi
    have hd : decide (b ≤ eS.left) = false := by
      rw [decide_eq_false_iff_not]
      omega
    rw [hd, Bool.false_and]
  rw [if_neg (by rw [hfl]; exact Bool.false_ne_true)]
  have hfr : fits_right_check m1 i eS r b = true := by
    unfold fits_right_check
    rw [Bool.and_eq_true]
    refine ⟨by rw [decide_eq_true_iff]; omega, ?_⟩
    cases hsucc : m1[i + 1]? with
    | none => rfl
    | some en =>
      rw [decide_eq_true_iff]
      exact h4 en hsucc
  rw [if_pos hfr]
  unfold inject_right
  have hlm : left_merge_here eS r w = false := by
    unfold left_merge_here
    have hd : decide (r = eS.right) = false := by
      rw [decide_eq_false_iff_not]
      omega
    rw [hd, Bool.false_and]
  rw [hlm, Bool.false_and, if_neg Bool.false_ne_true,
    if_neg Bool.false_ne_true]
  cases hsucc : m1[i + 1]? with
  | none =>
    have hrm : right_merge_next m1 i b w = false := by
      unfold right_merge_next
      rw [hsucc]
    rw [if_neg (by rw [hrm]; exact Bool.false_ne_true)]
    exact Or.inl (mem_emplace_of_mem he0)
  | some en =>
    have hkey : ∀ e ∈ m1, e.left ≠ r := by
      intro e he'
      obtain ⟨j, hj⟩ := List.mem_iff_getElem?.mp he'
      rcases Nat.lt_or_ge j (i + 1) with hji | hji
      · have := h3 j e (by omega) hj
        omega
      · have hbl := h4 en hsucc
        rcases Nat.eq_or_lt_of_le hji with hji' | hji'
        · rw [← hji', hsucc] at hj
          have hej : en = e := by injection hj
          subst hej
          omega
        · have := (hsv.ordRel hji' hsucc hj).2
          omega
    by_cases hmg : right_merge_next m1 i b w = true
    · rw [if_pos hmg]
      simp only [hsucc]
      unfold right_merge_next at hmg
      rw [hsucc, Bool.and_eq_true] at hmg
      have hb1 : b = en.left := of_decide_eq_true hmg.1
      have hb2 : w = en.val := of_decide_eq_true hmg.2
      by_cases h0 : e0 = en
      · subst h0
        right
        rw [← hb2]
        exact mem_erase_key_of_ne (self_mem_emplace hkey) (by dsimp; omega)
      · left
        refine mem_erase_key_of_ne (mem_emplace_of_mem he0) ?_
        intro hc
        exact h0 (left_unique hsv he0 (mem_of_getElem? hsucc) hc)
    · rw [if_neg hmg]
      exact Or.inl (mem_emplace_of_mem he0)

/-! ### One-step unfolding of the erase scan -/

theorem erase_loop_succ_none {m : List (Entry V)} {l r nl : Int} {f : Nat}
    (hc : m[candidate m nl]? = none) :
    erase_loop l r (f + 1) m nl = (m, true) := by
  simp only [erase_loop, hc]

theorem erase_loop_succ_stop {m : List (Entry V)} {l r nl : Int} {f : Nat}
    {e : Entry V} (hc : m[candidate m nl]? = some e) (hg : r ≤ e.left) :
    erase_loop l r (f + 1) m nl = (m, true) := by
  simp only [erase_loop, hc]
  rw [if_pos hg]

theorem erase_loop_succ_case1 {m : List (Entry V)} {l r nl : Int} {f : Nat}
    {e : Entry V} (hc : m[candidate m nl]? = some e) (hg : ¬r ≤ e.left)
    (h1 : l ≤ e.left ∧ e.right ≤ r) :
    erase_loop l r (f + 1) m nl
      = erase_loop l r f (m.eraseIdx (candidate m nl)) e.right := by
  simp only [erase_loop, hc]
  rw [if_neg hg, if_pos h1]

theorem erase_loop_succ_case2 {m : List (Entry V)} {l r nl : Int} {f : Nat}
    {e : Entry V} (hc : m[candidate m nl]? = some e) (hg : ¬r ≤ e.left)
    (h1 : ¬(l ≤ e.left ∧ e.right ≤ r)) (h2 : e.left ≤ l ∧ r ≤ e.right) :
    erase_loop l r (f + 1) m nl
      = ((inject (set_right m (candidate m nl) l) r e.right e.val).1,
          true) := by
  simp only [erase_loop, hc]
  rw [if_neg hg, if_neg h1, if_pos h2]

theorem erase_loop_succ_case3 {m : List (Entry V)} {l r nl : Int} {f : Nat}
    {e : Entry V} (hc : m[candidate m nl]? = some e) (hg : ¬r ≤ e.left)
    (h1 : ¬(l ≤ e.left ∧ e.right ≤ r)) (h2 : ¬(e.left ≤ l ∧ r ≤ e.right))
    (h3 : l ≤ e.left ∧ e.left < r) :
    erase_loop l r (f + 1) m nl
      = (erase_key (emplace m r e.right e.val).1 e.left, true) := by
  simp only [erase_loop, hc]
  rw [if_neg hg, if_neg h1, if_neg h2, if_pos h3]

theorem erase_loop_succ_case4 {m : List (Entry V)} {l r nl : Int} {f : Nat}
    {e : Entry V} (hc : m[candidate m nl]? = some e) (hg : ¬r ≤ e.left)
    (h1 : ¬(l ≤ e.left ∧ e.right ≤ r)) (h2 : ¬(e.left ≤ l ∧ r ≤ e.right))
    (h3 : ¬(l ≤ e.left ∧ e.left < r)) (h4 : l < e.right ∧ e.right ≤ r) :
    erase_loop l r (f + 1) m nl
      = erase_loop l r f (set_right m (candidate m nl) l) e.right := by
  simp only [erase_loop, hc]
  rw [if_neg hg, if_neg h1, if_neg h2, if_neg h3, if_pos h4]

theorem erase_loop_succ_fall {m : List (Entry V)} {l r nl : Int} {f : Nat}
    {e : Entry V} (hc : m[candidate m nl]? = some e) (hg : ¬r ≤ e.left)
    (h1 : ¬(l ≤ e.left ∧ e.right ≤ r)) (h2 : ¬(e.left ≤ l ∧ r ≤ e.right))
    (h3 : ¬(l ≤ e.left ∧ e.left < r)) (h4 : ¬(l < e.right ∧ e.right ≤ r)) :
    erase_loop l r (f + 1) m nl = erase_loop l r f m e.right := by
  simp only [erase_loop, hc]
  rw [if_neg hg, if_neg h1, if_neg h2, if_neg h3, if_neg h4]

/-- Once the scan reaches a `break` within some fuel, adding more fuel does
not change the result. -/
theorem erase_loop_fuel_mono {l r : Int} :
    ∀ (f : Nat) (m : List (Entry V)) (nl : Int),
      (erase_loop l r f m nl).2 = true →
      ∀ g, f ≤ g → erase_loop l r g m nl = erase_loop l r f m nl := by
  intro f
  induction f with
  | zero =>
    intro m nl h
    simp [erase_loop] at h
  | succ f ih =>
    intro m nl h g hg
    obtain ⟨g', rfl⟩ : ∃ g', g = g' + 1 := ⟨g - 1, by omega⟩
    cases hc : m[candidate m nl]? with
    | none => rw [erase_loop_succ_none hc, erase_loop_succ_none hc]
    | some e =>
      by_cases hgd : r ≤ e.left
      · rw [erase_loop_succ_stop hc hgd, erase_loop_succ_stop hc hgd]
      · by_cases h1 : l ≤ e.left ∧ e.right ≤ r
        · rw [erase_loop_succ_case1 hc hgd h1] at h
          rw [erase_loop_succ_case1 hc hgd h1, erase_loop_succ_case1 hc hgd h1]
          exact ih _ _ h g' (by omega)
        · by_cases h2 : e.left ≤ l ∧ r ≤ e.right
          · rw [erase_loop_succ_case2 hc hgd h1 h2,
              erase_loop_succ_case2 hc hgd h1 h2]
          · by_cases h3 : l ≤ e.left ∧ e.left < r
            · rw [erase_loop_succ_case3 hc hgd h1 h2 h3,
                erase_loop_succ_case3 hc hgd h1 h2 h3]
            · by_cases h4 : l < e.right ∧ e.right ≤ r
              · rw [erase_loop_succ_case4 hc hgd h1 h2 h3 h4] at h
                rw [erase_loop_succ_case4 hc hgd h1 h2 h3 h4,
                  erase_loop_succ_case4 hc hgd h1 h2 h3 h4]
                exact ih _ _ h g' (by omega)
              · rw [erase_loop_succ_fall hc hgd h1 h2 h3 h4] at h
                rw [erase_loop_succ_fall hc hgd h1 h2 h3 h4,
                  erase_loop_succ_fall hc hgd h1 h2 h3 h4]
                exact ih _ _ h g' (by omega)

/-- Phase 2 of the scan: once the cursor `nl` is strictly past `l` and all
entries starting before `nl` already end at or before `l`, every iteration
either stops or erases the candidate, so any fuel exceeding the number of
entries starting at or after `nl` reaches a `break`; moreover entries
starting at or after `r` survive untouched. -/
theorem erase_loop_phase2 {l r : Int} :
    ∀ (k : Nat) (m : List (Entry V)) (nl : Int) (f : Nat),
      SortedValid m → l < nl →
      (∀ e ∈ m, e.left < nl → e.right ≤ l) →
      (m.filter (fun e => decide (nl ≤ e.left))).length < k →
      k ≤ f →
      (erase_loop l r f m nl).2 = true ∧
        ∀ e0 ∈ m, r ≤ e0.left → e0 ∈ (erase_loop l r f m nl).1 := by
  intro k
  induction k with
  | zero =>
    intro m nl f _ _ _ hcount _
    omega
  | succ k ih =>
    intro m nl f hsv hnl hbelow hcount hkf
    obtain ⟨f', rfl⟩ : ∃ f', f = f' + 1 := ⟨f - 1, by omega⟩
    cases hc : m[candidate m nl]? with
    | none =>
      rw [erase_loop_succ_none hc]
      exact ⟨rfl, fun e0 he0 _ => he0⟩
    | some e =>
      obtain ⟨hel, hcand⟩ := cand_phase2 hsv hnl hbelow hc
      by_cases hgd : r ≤ e.left
      · rw [erase_loop_succ_stop hc hgd]
        exact ⟨rfl, fun e0 he0 _ => he0⟩
      · have hgl : e.left < r := by omega
        have hwide := hsv.wide hc
        by_cases hrr : e.right ≤ r
        · -- the erase range covers the candidate: case 1, erase and go on
          have h1 : l ≤ e.left ∧ e.right ≤ r := ⟨by omega, hrr⟩
          rw [erase_loop_succ_case1 hc hgd h1]
          have hsv' := hsv.eraseIdx (candidate m nl)
          have hnl' : l < e.right := by omega
          have hbelow' : ∀ e0 ∈ m.eraseIdx (candidate m nl),
              e0.left < e.right → e0.right ≤ l := by
            intro e0 he0 hlt
            obtain ⟨j', hj'⟩ := List.mem_iff_getElem?.mp he0
            rw [List.getElem?_eraseIdx] at hj'
            by_cases hj : j' < candidate m nl
            · rw [if_pos hj] at hj'
              have hlt' : e0.left < nl :=
                left_lt_of_lt_lower_bound (hcand ▸ hj) hj'
              exact hbelow e0 (mem_of_getElem? hj') hlt'
            · rw [if_neg hj] at hj'
              have := (hsv.ordRel (by omega : candidate m nl < j' + 1) hc hj').1
              omega
          have hcount' : ((m.eraseIdx (candidate m nl)).filter
              (fun e0 => decide (e.right ≤ e0.left))).length < k := by
            have hmono : ((m.eraseIdx (candidate m nl)).filter
                (fun e0 => decide (e.right ≤ e0.left))).length
                ≤ ((m.eraseIdx (candidate m nl)).filter
                  (fun e0 => decide (nl ≤ e0.left))).length :=
              filter_length_mono (fun x hx hq => by
                rw [decide_eq_true_iff] at hq ⊢
                omega)
            have hdrop := filter_length_eraseIdx
              (p := fun e0 => decide (nl ≤ e0.left)) hc
              (by rw [decide_eq_true_iff]; exact hel)
            omega
          have hres := ih (m.eraseIdx (candidate m nl)) e.right f' hsv' hnl'
            hbelow' hcount' (by omega)
          refine ⟨hres.1, fun e0 he0 hr0 => ?_⟩
          have hne0 : e0 ≠ e := by
            intro hcontra
            subst hcontra
            omega
          exact hres.2 e0 (mem_eraseIdx_of_ne hc he0 hne0) hr0
        · -- the candidate runs past r: case 3, split off the tail and stop
          have h1 : ¬(l ≤ e.left ∧ e.right ≤ r) := by omega
          have h2 : ¬(e.left ≤ l ∧ r ≤ e.right) := by omega
          have h3 : l ≤ e.left ∧ e.left < r := ⟨by omega, hgl⟩
          rw [erase_loop_succ_case3 hc hgd h1 h2 h3]
          exact ⟨rfl, fun e0 he0 hr0 =>
            mem_erase_key_of_ne (mem_emplace_of_mem he0) (by omega)⟩

/-- The full scan of `erase(l, r)` starting at cursor `l` on a well-formed
map: fuel `length + 1` reaches a `break`, and every entry starting at or
after `r` either survives untouched or is fused into `[r, its right)` with
its value by the containment-split's `inject`. -/
theorem erase_loop_phase1 {l r : Int} (hlr : l < r) :
    ∀ (n : Nat) (m : List (Entry V)) (f : Nat),
      m.length ≤ n → SortedValid m → n + 1 ≤ f →
      (erase_loop l r f m l).2 = true ∧
        ∀ e0 ∈ m, r ≤ e0.left →
          (e0 ∈ (erase_loop l r f m l).1 ∨
            (⟨r, e0.right, e0.val⟩ : Entry V) ∈ (erase_loop l r f m l).1) := by
  intro n
  induction n with
  | zero =>
    intro m f hlen hsv hf
    obtain ⟨f', rfl⟩ : ∃ f', f = f' + 1 := ⟨f - 1, by omega⟩
    have hm : m = [] := List.length_eq_zero.mp (by omega)
    subst hm
    have hc : (([] : List (Entry V)))[candidate ([] : List (Entry V)) l]?
        = none := rfl
    rw [erase_loop_succ_none hc]
    exact ⟨rfl, fun e0 he0 => absurd he0 (List.not_mem_nil e0)⟩
  | succ n ih =>
    intro m f hlen hsv hf
    obtain ⟨f', rfl⟩ : ∃ f', f = f' + 1 := ⟨f - 1, by omega⟩
    cases hc : m[candidate m l]? with
    | none =>
      rw [erase_loop_succ_none hc]
      exact ⟨rfl, fun e0 he0 _ => Or.inl he0⟩
    | some e =>
      have hb := cand_before hsv hc
      have hwide := hsv.wide hc
      have hclen := lt_length_of_getElem? hc
      by_cases hgd : r ≤ e.left
      · rw [erase_loop_succ_stop hc hgd]
        exact ⟨rfl, fun e0 he0 _ => Or.inl he0⟩
      · have hgl : e.left < r := by omega
        by_cases h1 : l ≤ e.left ∧ e.right ≤ r
        · -- case 1: the candidate is erased whole
          rw [erase_loop_succ_case1 hc hgd h1]
          have hsv' := hsv.eraseIdx (candidate m l)
          have hlen' : (m.eraseIdx (candidate m l)).length ≤ n := by
            rw [List.length_eraseIdx, if_pos hclen]
            omega
          by_cases hdeg : e.right ≤ l
          · -- degenerate candidate [l, l): the cursor stays at l
            have hrl : e.right = l := by omega
            rw [hrl]
            have hres := ih (m.eraseIdx (candidate m l)) f' hlen' hsv'
              (by omega)
            refine ⟨hres.1, fun e0 he0 hr0 => ?_⟩
            have hne0 : e0 ≠ e := by
              intro hcontra; subst hcontra; omega
            exact hres.2 e0 (mem_eraseIdx_of_ne hc he0 hne0) hr0
          · -- the cursor advances past l: phase 2
            have hbelow' : ∀ e0 ∈ m.eraseIdx (candidate m l),
                e0.left < e.right → e0.right ≤ l := by
              intro e0 he0 hlt
              obtain ⟨j', hj'⟩ := List.mem_iff_getElem?.mp he0
              rw [List.getElem?_eraseIdx] at hj'
              by_cases hj : j' < candidate m l
              · rw [if_pos hj] at hj'
                exact hb j' e0 hj hj'
              · rw [if_neg hj] at hj'
                have := (hsv.ordRel (by omega : candidate m l < j' + 1) hc hj').1
                omega
            have hcount' : ((m.eraseIdx (candidate m l)).filter
                (fun e0 => decide (e.right ≤ e0.left))).length < n + 1 := by
              have := List.length_filter_le
                (fun e0 => decide (e.right ≤ e0.left))
                (m.eraseIdx (candidate m l))
              omega
            have hres := erase_loop_phase2 (l := l) (r := r) (n + 1)
              (m.eraseIdx (candidate m l))
              e.right f' hsv' (by omega) hbelow' hcount' (by omega)
            refine ⟨hres.1, fun e0 he0 hr0 => ?_⟩
            have hne0 : e0 ≠ e := by
              intro hcontra; subst hcontra; omega
            exact Or.inl (hres.2 e0 (mem_eraseIdx_of_ne hc he0 hne0) hr0)
        · by_cases h2 : e.left ≤ l ∧ r ≤ e.right
          · -- case 2: containment split, shrink to [left, l) and re-inject
            rw [erase_loop_succ_case2 hc hgd h1 h2]
            rw [set_right_eq hc]
            have hne0e : ∀ e0 ∈ m, r ≤ e0.left → e0 ≠ e := by
              intro e0 _ hr0 hcontra
              subst hcontra
              omega
            have hsv1 : SortedValid
                (m.set (candidate m l) ⟨e.left, l, e.val⟩) :=
              hsv.set_shrink hc h2.1 (by omega)
            have hi1 : (m.set (candidate m l)
                ⟨e.left, l, e.val⟩)[candidate m l]?
                  = some ⟨e.left, l, e.val⟩ :=
              List.getElem?_set_eq hclen
            by_cases hre : e.right ≤ r
            · -- the right remainder is empty: the inject is a no-op
              have hinj : inject (m.set (candidate m l) ⟨e.left, l, e.val⟩)
                  r e.right e.val
                    = (m.set (candidate m l) ⟨e.left, l, e.val⟩, false) := by
                unfold inject
                rw [if_pos hre]
              rw [hinj]
              exact ⟨rfl, fun e0 he0 hr0 =>
                Or.inl (mem_set_of_ne hc he0 (hne0e e0 he0 hr0))⟩
            · -- the right remainder [r, e.right) is re-injected
              refine ⟨rfl, fun e0 he0 hr0 => ?_⟩
              refine inject_after_split hsv1 hi1 (by dsimp; omega)
                (by omega) ?_ ?_
                (mem_set_of_ne hc he0 (hne0e e0 he0 hr0)) hr0
              · intro j d hj hd
                rcases Nat.lt_or_ge j (candidate m l) with hj' | hj'
                · rw [List.getElem?_set_ne (by omega)] at hd
                  have hdr := hb j d hj' hd
                  have hdw := hsv.wide hd
                  omega
                · have hj'' : j = candidate m l := by omega
                  rw [hj'', hi1] at hd
                  have hde : (⟨e.left, l, e.val⟩ : Entry V) = d := by
                    injection hd
                  rw [← hde]
                  dsimp
                  omega
              · intro d hd
                rw [List.getElem?_set_ne (by omega)] at hd
                exact (hsv.ordRel (by omega : candidate m l < candidate m l + 1)
                  hc hd).1
          · by_cases h3 : l ≤ e.left ∧ e.left < r
            · -- case 3: replace the candidate by its tail [r, right) and stop
              rw [erase_loop_succ_case3 hc hgd h1 h2 h3]
              exact ⟨rfl, fun e0 he0 hr0 => Or.inl
                (mem_erase_key_of_ne (mem_emplace_of_mem he0) (by omega))⟩
            · by_cases h4 : l < e.right ∧ e.right ≤ r
              · -- case 4: shrink the candidate to [left, l) and continue
                rw [erase_loop_succ_case4 hc hgd h1 h2 h3 h4]
                rw [set_right_eq hc]
                have hell : e.left < l := by omega
                have hsv1 : SortedValid
                    (m.set (candidate m l) ⟨e.left, l, e.val⟩) :=
                  hsv.set_shrink hc (by omega) (by omega)
                have hi1 : (m.set (candidate m l)
                    ⟨e.left, l, e.val⟩)[candidate m l]?
                      = some ⟨e.left, l, e.val⟩ :=
                  List.getElem?_set_eq hclen
                have hbelow' : ∀ e0 ∈ m.set (candidate m l)
                    ⟨e.left, l, e.val⟩, e0.left < e.right → e0.right ≤ l := by
                  intro e0 he0 hlt
                  obtain ⟨j', hj'⟩ := List.mem_iff_getElem?.mp he0
                  rcases Nat.lt_trichotomy j' (candidate m l) with hj | hj | hj
                  · rw [List.getElem?_set_ne (by omega)] at hj'
                    exact hb j' e0 hj hj'
                  · rw [hj, hi1] at hj'
                    have he0d : (⟨e.left, l, e.val⟩ : Entry V) = e0 := by
                      injection hj'
                    rw [← he0d]
                  · rw [List.getElem?_set_ne (by omega)] at hj'
                    have := (hsv.ordRel hj hc hj').1
                    omega
                have hcount' : ((m.set (candidate m l)
                    ⟨e.left, l, e.val⟩).filter
                      (fun e0 => decide (e.right ≤ e0.left))).length
                        < n + 1 := by
                  have hmem : (⟨e.left, l, e.val⟩ : Entry V)
                      ∈ m.set (candidate m l) ⟨e.left, l, e.val⟩ :=
                    List.mem_set m (candidate m l) hclen ⟨e.left, l, e.val⟩
                  have hflt := filter_length_lt
                    (p := fun e0 => decide (e.right ≤ e0.left)) hmem
                    (by simp only [decide_eq_false_iff_not]; omega)
                  rw [List.length_set] at hflt
                  omega
                have hres := erase_loop_phase2 (l := l) (r := r) (n + 1)
                  (m.set (candidate m l) ⟨e.left, l, e.val⟩) e.right f' hsv1
                  (by omega) hbelow' hcount' (by omega)
                refine ⟨hres.1, fun e0 he0 hr0 => ?_⟩
                have hne0 : e0 ≠ e := by
                  intro hcontra; subst hcontra; omega
                exact Or.inl (hres.2 e0 (mem_set_of_ne hc he0 hne0) hr0)
              · -- no case applies: impossible for a candidate at cursor l
                exfalso
                have hshape := cand_shapes hc
                omega

/-! ### C7: the frame property of `erase(l, r)` -/

/-- Counterexample to C7 as stated: on `{[0,20) -> "A", [20,30) -> "A"}`,
`erase(5, 10)` splits `[0,20)` and re-injects the remainder `[10, 20)` via
`inject`, which fuses it with the touching equal-valued entry `[20, 30)`;
that entry has `left = 20 ≥ r = 10` yet is absorbed (it is no longer
present afterwards). -/
theorem erase_range_frame_cex :
    ((⟨20, 30, "A"⟩ : Entry String) ∈
        ([⟨0, 20, "A"⟩, ⟨20, 30, "A"⟩] : List (Entry String)) ∧
      (10 : Int) ≤ 20) ∧
      (⟨20, 30, "A"⟩ : Entry String) ∉
        erase_range [⟨0, 20, "A"⟩, ⟨20, 30, "A"⟩] 5 10 :=
  ⟨⟨by decide, by decide⟩, by decide⟩

/-- C7 (amended): on a well-formed map, `erase(l, r)` leaves every stored
entry whose left endpoint is at or beyond `r` either present unchanged, or
— only when the containment-split's re-`inject` merges the remainder with
it (touching endpoint, equal value) — replaced by the fused entry
`[r, its right)` carrying its value. -/
theorem erase_range_frame (m : List (Entry V)) (l r : Int)
    (hsv : SortedValid m) (e0 : Entry V) (he0 : e0 ∈ m) (hr0 : r ≤ e0.left) :
    e0 ∈ erase_range m l r ∨
      (⟨r, e0.right, e0.val⟩ : Entry V) ∈ erase_range m l r := by
  unfold erase_range
  by_cases hrl : r ≤ l
  · rw [if_pos hrl]
    exact Or.inl he0
  · rw [if_neg hrl]
    exact (erase_loop_phase1 (by omega) m.length m (m.length + 1)
      le_rfl hsv le_rfl).2 e0 he0 hr0

/-- Witness for the amended C7 at a concrete input with entries on both
sides of the erased range. -/
theorem erase_range_frame_witness :
    (⟨20, 30, "A"⟩ : Entry String) ∈
        erase_range [(⟨0, 5, "A"⟩ : Entry String), ⟨20, 30, "A"⟩] 8 10 ∨
      (⟨10, 30, "A"⟩ : Entry String) ∈
        erase_range [(⟨0, 5, "A"⟩ : Entry String), ⟨20, 30, "A"⟩] 8 10 :=
  erase_range_frame _ 8 10 ⟨by decide, by decide⟩ _ (by decide) (by decide)

/-! ### C8: termination of `erase(l, r)` -/

/-- C8: on a well-formed map (weak validity suffices, so even the
degenerate states produced by the splitting bug are covered), the scan of
`erase(l, r)` reaches one of its `break` points within `length + 1`
iterations — for an invalid range the function returns at once — and giving
the loop any more fuel does not change the result: the fuelled embedding
stabilizes, i.e. the C++ loop terminates. -/
theorem erase_range_terminates (m : List (Entry V)) (l r : Int)
    (hsv : SortedValid m) :
    (r ≤ l → erase_range m l r = m) ∧
      (l < r →
        (erase_loop l r (m.length + 1) m l).2 = true ∧
          ∀ f, m.length + 1 ≤ f →
            erase_loop l r f m l = erase_loop l r (m.length + 1) m l) := by
  constructor
  · intro hrl
    unfold erase_range
    rw [if_pos hrl]
  · intro hlr
    have hterm := (erase_loop_phase1 hlr m.length m (m.length + 1)
      le_rfl hsv le_rfl).1
    exact ⟨hterm,
      fun f hf => erase_loop_fuel_mono (m.length + 1) m l hterm f hf⟩

/-- Witness for C8 at a concrete input: with two entries the scan stops
within fuel 3 and extra fuel changes nothing. -/
theorem erase_range_terminates_witness :
    (erase_loop 5 15 3
        [(⟨0, 10, "A"⟩ : Entry String), ⟨12, 20, "A"⟩] 5).2 = true ∧
      erase_loop 5 15 7 [(⟨0, 10, "A"⟩ : Entry String), ⟨12, 20, "A"⟩] 5
        = erase_loop 5 15 3
            [(⟨0, 10, "A"⟩ : Entry String), ⟨12, 20, "A"⟩] 5 := by
  have h := erase_range_terminates
    [(⟨0, 10, "A"⟩ : Entry String), ⟨12, 20, "A"⟩] 5 15
    ⟨by decide, by decide⟩
  exact ⟨(h.2 (by decide)).1, (h.2 (by decide)).2 7 (by decide)⟩

end range_map
